import Mathlib

/-!
Shallow embedding of `bipCPP` from `src/phangorn_bip.cpp`.

The C++ function receives a two-column integer matrix `orig` of edges
(parent id, child id) and a tip count `nTips`.  It computes
`m = max(parent)`, allocates a table `out` of `m` growable int vectors,
seeds `out[i] = [i+1]` for `i = 0 .. nTips-1`, then for every edge
`(parent[i], children[i])` appends either the single tip label
`children[i]` (when `children[i] <= nTips`) or a value copy of the whole
vector `out[children[i]-1]` (when `children[i] > nTips`) to
`out[parent[i]-1]`.  Finally every entry is sorted ascending and the
table is returned.

The embedding makes every `std::vector` subscript bounds-checked: an
index outside the allocated range is undefined behavior in the source,
modelled here as the failure outcome `Outcome.ub`.  A negative vector
size passed to the `std::vector` constructor converts to a huge
`size_t` and makes the constructor throw `std::length_error`, a defined
C++ exception which the surrounding Rcpp glue surfaces to the caller;
that is modelled as `Outcome.thrown`.  Machine ints are modelled as
unbounded `Int` (no arithmetic in the source can overflow before an
out-of-bounds access is hit).
-/

/-- Outcome of one call of `bipCPP`: either a returned table of
descendant lists, or `ub` (the run performs an out-of-bounds
`std::vector` subscript, i.e. undefined behavior, including the read of
element 0 that Rcpp sugar `max` performs on an empty column), or
`thrown` (a C++ exception thrown by the `std::vector` constructor for a
negative size, surfaced to the caller by the Rcpp wrapper). -/
inductive Outcome where
  | ok (res : List (List Int)) : Outcome
  | ub : Outcome
  | thrown : Outcome
  deriving DecidableEq

/-- Entry of the descendant table at 0-based index `x` (the C++ `out[x]`);
out of range it defaults to `[]`, but every use below is bounds-guarded. -/
def entry (t : List (List Int)) (x : Nat) : List Int :=
  t.getD x []

/-- Read `out[j]` for an `int` index `j`, with the `std::vector` bound made
explicit: an index outside the allocated range is undefined behavior
(`none`). -/
def getAt (t : List (List Int)) (j : Int) : Option (List Int) :=
  if 0 ≤ j ∧ j.toNat < t.length then some (entry t j.toNat) else none

/-- Write `out[j] := v`, with the `std::vector` bound made explicit. -/
def setAt (t : List (List Int)) (j : Int) (v : List Int) : Option (List (List Int)) :=
  if 0 ≤ j ∧ j.toNat < t.length then some (t.set j.toNat v) else none

/-- The seeding loop `for(i = 0; i < nTips; i++) out[i].push_back(i+1);`,
iterated over the list of loop indices. -/
def seedLoop : List (List Int) → List Nat → Option (List (List Int))
  | t, [] => some t
  | t, i :: rest =>
    match getAt t (i : Int) with
    | none => none
    | some cur =>
      match setAt t (i : Int) (cur ++ [(i : Int) + 1]) with
      | none => none
      | some t1 => seedLoop t1 rest

/-- Seeding with the loop indices `0 .. nTips-1` (empty for `nTips ≤ 0`,
exactly as the C++ `for` loop). -/
def seedTips (t : List (List Int)) (nTips : Int) : Option (List (List Int)) :=
  seedLoop t (List.range nTips.toNat)

/-- One iteration of the edge loop on edge `e = (parent, child)`:
`j = parent - 1`; if `child > nTips` read `y = out[child-1]` and append a
value copy of it to `out[j]`, else `out[j].push_back(child)`. -/
def processEdge (nTips : Int) (t : List (List Int)) (e : Int × Int) :
    Option (List (List Int)) :=
  if nTips < e.2 then
    match getAt t (e.2 - 1) with
    | none => none
    | some y =>
      match getAt t (e.1 - 1) with
      | none => none
      | some cur => setAt t (e.1 - 1) (cur ++ y)
  else
    match getAt t (e.1 - 1) with
    | none => none
    | some cur => setAt t (e.1 - 1) (cur ++ [e.2])

/-- The edge loop `for(i = 0; i < parent.size(); i++) ...` over the edge
rows in order. -/
def processEdges (nTips : Int) :
    List (List Int) → List (Int × Int) → Option (List (List Int))
  | t, [] => some t
  | t, e :: rest =>
    match processEdge nTips t e with
    | none => none
    | some t1 => processEdges nTips t1 rest

/-- Rcpp sugar `max` over an integer vector: it reads element 0 and folds
`max` over the rest; on an empty vector the first read is out of range
(undefined behavior, `none`). -/
def rcppMax : List Int → Option Int
  | [] => none
  | x :: xs => some (xs.foldl max x)

/-- The value `m = max(parent)` of the source, as a total function
(defaulting to 0 on an empty edge list, where the source has no defined
value at all). -/
def maxParent (edges : List (Int × Int)) : Int :=
  (rcppMax (edges.map Prod.fst)).getD 0

/-- The whole of `bipCPP`: compute `m = max(parent)`, allocate the table
of `m` empty vectors, seed the tips, run the edge loop, sort every entry
ascending, and return the table. -/
def bipCPP (edges : List (Int × Int)) (nTips : Int) : Outcome :=
  match rcppMax (edges.map Prod.fst) with
  | none => Outcome.ub
  | some m =>
    if m < 0 then Outcome.thrown
    else
      match seedTips (List.replicate m.toNat []) nTips with
      | none => Outcome.ub
      | some t1 =>
        match processEdges nTips t1 edges with
        | none => Outcome.ub
        | some t2 => Outcome.ok (t2.map (List.insertionSort (· ≤ ·)))

/-- The descendant list reported for node id `i` (1-indexed, as the R
caller sees the returned list). -/
def resultFor (res : List (List Int)) (i : Int) : List Int :=
  entry res (i - 1).toNat

/-- What one edge `f` appends to its parent's container, read off a table
`t`: the single tip label for a tip child, a copy of the child's current
container for an internal child. -/
def contrib (nTips : Int) (t : List (List Int)) (f : Int × Int) : List Int :=
  if nTips < f.2 then entry t (f.2 - 1).toNat else [f.2]

/-- The ascending list `[1, 2, ..., n]` of integer ids (empty for `n ≤ 0`). -/
def upTo (n : Int) : List Int :=
  (List.range n.toNat).map fun (k : Nat) => (k : Int) + 1

/-- The bottom-up edge-ordering precondition of the spec: whenever an edge
with an internal child is processed, all edges having that child as a
parent have already been processed (so no such edge occurs at or after
the current position). -/
def bottomUpB (nTips : Int) : List (Int × Int) → Bool
  | [] => true
  | e :: rest =>
    ((!decide (nTips < e.2)) || (e :: rest).all fun f => f.1 != e.2) &&
      bottomUpB nTips rest

/-- Validity of a tree input, as enumerated by the spec: a non-empty edge
list, a positive tip count, `nTips ≤ maxNodeId`, all child ids in
`1 .. maxNodeId`, all parents internal (tip ids `1 .. nTips` are leaves),
every internal id in `nTips+1 .. maxNodeId` appearing as a parent, each
node id appearing at most once as a child (unique parents, as in any
tree), and the bottom-up edge ordering. -/
def validTree (edges : List (Int × Int)) (nTips : Int) : Bool :=
  (!edges.isEmpty) && decide (0 < nTips) && decide (nTips ≤ maxParent edges) &&
    (edges.all fun f =>
      decide (1 ≤ f.2) && decide (f.2 ≤ maxParent edges) && decide (nTips < f.1)) &&
    ((upTo (maxParent edges)).all fun i =>
      decide (i ≤ nTips) || edges.any fun f => f.1 == i) &&
    decide (edges.map Prod.snd).Nodup &&
    bottomUpB nTips edges

/-- A valid tree input that moreover is rooted at `maxNodeId`: every node
id below `maxNodeId` appears (once) as a child, and `maxNodeId` itself
never does. -/
def rootedTree (edges : List (Int × Int)) (nTips : Int) : Bool :=
  validTree edges nTips &&
    ((upTo (maxParent edges)).all fun a =>
      decide (a = maxParent edges) || edges.any fun f => f.2 == a) &&
    (edges.all fun f => f.2 != maxParent edges)

/-- The union of the reported descendant sets of the children of node `i`,
taken over all edges `(i, c)` of the edge list. -/
def childUnion (res : List (List Int)) (edges : List (Int × Int)) (i : Int) :
    Finset Int :=
  ((edges.filter fun f => f.1 == i).map fun f =>
    (resultFor res f.2).toFinset).foldr (· ∪ ·) ∅

/-- A read of one column of the caller's edge matrix, threading the matrix
itself through as state (the Rcpp column accessor only reads `orig`). -/
def readCol (orig : List (Int × Int)) (k : Nat) :
    List (Int × Int) × List Int :=
  (orig, if k = 0 then orig.map Prod.fst else orig.map Prod.snd)

/-- A whole call of `bipCPP` as seen from the caller: the first component
is the caller's edge matrix after the call, the second the outcome.  The
body reads the two columns of `orig` into its own local vectors and never
writes to `orig`. -/
def bipCPPRun (orig : List (Int × Int)) (nTips : Int) :
    List (Int × Int) × Outcome :=
  let pr := readCol orig 0
  let cr := readCol pr.1 1
  (cr.1, bipCPP (pr.2.zip cr.2) nTips)

theorem entry_set_self {t : List (List Int)} {x : Nat} (h : x < t.length)
    (v : List Int) : entry (t.set x v) x = v := by
  simp [entry, List.getD, List.getElem?_set_self (by simpa using h)]

theorem entry_set_ne {t : List (List Int)} {x y : Nat} (h : y ≠ x)
    (v : List Int) : entry (t.set y v) x = entry t x := by
  simp [entry, List.getD, List.getElem?_set_ne h]

theorem entry_replicate {n x : Nat} :
    entry (List.replicate n ([] : List Int)) x = [] := by
  rcases Nat.lt_or_ge x n with h | h
  · simp [entry, List.getD, List.getElem?_replicate, h]
  · simp [entry, List.getD, List.getElem?_replicate, Nat.not_lt.mpr h]

theorem entry_map_sort (t : List (List Int)) (x : Nat) :
    entry (t.map (List.insertionSort (· ≤ ·))) x =
      List.insertionSort (· ≤ ·) (entry t x) := by
  unfold entry
  rcases Nat.lt_or_ge x t.length with h | h
  · simp [List.getD, List.getElem?_map, List.getElem?_eq_getElem h]
  · simp [List.getD, List.getElem?_map,
      List.getElem?_eq_none (by simpa using h)]

theorem getAt_some {t : List (List Int)} {j : Int} {v : List Int} :
    getAt t j = some v ↔ (0 ≤ j ∧ j.toNat < t.length) ∧ v = entry t j.toNat := by
  unfold getAt
  split
  · rename_i h; simp [h]; exact comm
  · rename_i h; simp [h]

theorem setAt_some {t t' : List (List Int)} {j : Int} {v : List Int} :
    setAt t j v = some t' ↔
      (0 ≤ j ∧ j.toNat < t.length) ∧ t' = t.set j.toNat v := by
  unfold setAt
  split
  · rename_i h; simp [h]; exact comm
  · rename_i h; simp [h]

theorem processEdge_some {nTips : Int} {t t' : List (List Int)}
    {e : Int × Int} :
    processEdge nTips t e = some t' ↔
      (0 ≤ e.1 - 1 ∧ (e.1 - 1).toNat < t.length) ∧
      (nTips < e.2 → 0 ≤ e.2 - 1 ∧ (e.2 - 1).toNat < t.length) ∧
      t' = t.set (e.1 - 1).toNat
        (entry t (e.1 - 1).toNat ++ contrib nTips t e) := by
  unfold processEdge contrib
  split
  · rename_i hc
    constructor
    · intro h
      rcases hy : getAt t (e.2 - 1) with _ | y <;> rw [hy] at h
      · exact absurd h (by simp)
      rcases hcur : getAt t (e.1 - 1) with _ | cur <;> rw [hcur] at h
      · exact absurd h (by simp)
      obtain ⟨hjb, rfl⟩ := setAt_some.mp h
      obtain ⟨hcb, rfl⟩ := getAt_some.mp hy
      obtain ⟨_, rfl⟩ := getAt_some.mp hcur
      exact ⟨hjb, fun _ => hcb, by simp [hc]⟩
    · rintro ⟨hjb, hcb, rfl⟩
      rw [getAt_some.mpr ⟨hcb hc, rfl⟩, getAt_some.mpr ⟨hjb, rfl⟩]
      exact setAt_some.mpr ⟨hjb, by simp [hc]⟩
  · rename_i hc
    constructor
    · intro h
      rcases hcur : getAt t (e.1 - 1) with _ | cur <;> rw [hcur] at h
      · exact absurd h (by simp)
      obtain ⟨hjb, rfl⟩ := setAt_some.mp h
      obtain ⟨_, rfl⟩ := getAt_some.mp hcur
      exact ⟨hjb, fun hx => absurd hx hc, by simp [hc]⟩
    · rintro ⟨hjb, hcb, rfl⟩
      rw [getAt_some.mpr ⟨hjb, rfl⟩]
      exact setAt_some.mpr ⟨hjb, by simp [hc]⟩

theorem processEdge_length {nTips : Int} {t t' : List (List Int)}
    {e : Int × Int} (h : processEdge nTips t e = some t') :
    t'.length = t.length := by
  obtain ⟨_, _, rfl⟩ := processEdge_some.mp h
  simp

theorem processEdges_length {nTips : Int} :
    ∀ {edges : List (Int × Int)} {t t' : List (List Int)},
      processEdges nTips t edges = some t' → t'.length = t.length
  | [], t, t', h => by
      simp only [processEdges, Option.some.injEq] at h
      rw [← h]
  | e :: rest, t, t', h => by
      rw [processEdges] at h
      rcases h1 : processEdge nTips t e with _ | t1 <;> rw [h1] at h
      · exact absurd h (by simp)
      · exact (processEdges_length h).trans (processEdge_length h1)

theorem processEdges_stable {nTips : Int} :
    ∀ {edges : List (Int × Int)} {t t' : List (List Int)},
      processEdges nTips t edges = some t' →
      ∀ a : Int, 1 ≤ a → (∀ f ∈ edges, f.1 ≠ a) →
        entry t' (a - 1).toNat = entry t (a - 1).toNat
  | [], t, t', h => by
      simp only [processEdges, Option.some.injEq] at h
      intro a _ _; rw [← h]
  | e :: rest, t, t', h => by
      intro a ha hno
      rw [processEdges] at h
      rcases h1 : processEdge nTips t e with _ | t1 <;> rw [h1] at h
      · exact absurd h (by simp)
      obtain ⟨⟨hj0, hjlen⟩, _, rfl⟩ := processEdge_some.mp h1
      have hne : (e.1 - 1).toNat ≠ (a - 1).toNat := by
        have h2 := hno e (List.mem_cons_self e rest)
        omega
      have hrec := processEdges_stable h a ha
        (fun f hf => hno f (List.mem_cons_of_mem _ hf))
      rw [hrec, entry_set_ne hne]

theorem processEdges_some_of_bounds {nTips : Int} :
    ∀ {edges : List (Int × Int)} {t : List (List Int)},
      (∀ f ∈ edges, (0 ≤ f.1 - 1 ∧ (f.1 - 1).toNat < t.length) ∧
        (nTips < f.2 → 0 ≤ f.2 - 1 ∧ (f.2 - 1).toNat < t.length)) →
      ∃ t', processEdges nTips t edges = some t'
  | [], t, _ => ⟨t, rfl⟩
  | e :: rest, t, hb => by
      have he := hb e (List.mem_cons_self e rest)
      have h1 : processEdge nTips t e = some (t.set (e.1 - 1).toNat
          (entry t (e.1 - 1).toNat ++ contrib nTips t e)) :=
        processEdge_some.mpr ⟨he.1, he.2, rfl⟩
      have hb2 : ∀ f ∈ rest, (0 ≤ f.1 - 1 ∧ (f.1 - 1).toNat <
          (t.set (e.1 - 1).toNat
            (entry t (e.1 - 1).toNat ++ contrib nTips t e)).length) ∧
          (nTips < f.2 → 0 ≤ f.2 - 1 ∧ (f.2 - 1).toNat <
            (t.set (e.1 - 1).toNat
              (entry t (e.1 - 1).toNat ++ contrib nTips t e)).length) :=
        fun f hf => by simpa using hb f (List.mem_cons_of_mem _ hf)
      obtain ⟨t', ht'⟩ := processEdges_some_of_bounds hb2
      exact ⟨t', by rw [processEdges, h1]; exact ht'⟩

theorem bottomUpB_cons {nTips : Int} {e : Int × Int}
    {rest : List (Int × Int)} :
    bottomUpB nTips (e :: rest) = true ↔
      (nTips < e.2 → ∀ f ∈ e :: rest, f.1 ≠ e.2) ∧
        bottomUpB nTips rest = true := by
  rw [bottomUpB, Bool.and_eq_true, Bool.or_eq_true, Bool.not_eq_true',
    decide_eq_false_iff_not, List.all_eq_true]
  constructor
  · rintro ⟨h1 | h1, h2⟩
    · exact ⟨fun hc => absurd hc h1, h2⟩
    · exact ⟨fun _ f hf => by simpa using h1 f hf, h2⟩
  · rintro ⟨h1, h2⟩
    refine ⟨?_, h2⟩
    by_cases hc : nTips < e.2
    · exact Or.inr fun f hf => by simpa using h1 hc f hf
    · exact Or.inl hc

theorem processEdges_join {nTips : Int} :
    ∀ {edges : List (Int × Int)} {t t' : List (List Int)},
      bottomUpB nTips edges = true →
      processEdges nTips t edges = some t' →
      ∀ x : Nat,
        entry t' x = entry t x ++
          ((edges.filter fun f => f.1 == (x : Int) + 1).map
            (contrib nTips t')).flatten
  | [], t, t', _, h => by
      simp only [processEdges, Option.some.injEq] at h
      intro x; rw [← h]; simp
  | e :: rest, t, t', hbu, h => by
      intro x
      rw [processEdges] at h
      rcases h1 : processEdge nTips t e with _ | t1 <;> rw [h1] at h
      · exact absurd h (by simp)
      obtain ⟨hbu1, hbu2⟩ := bottomUpB_cons.mp hbu
      obtain ⟨⟨hj0, hjlen⟩, hcb, rfl⟩ := processEdge_some.mp h1
      have hIH := processEdges_join hbu2 h x
      by_cases hpx : e.1 = (x : Int) + 1
      · have hxw : (e.1 - 1).toNat = x := by omega
        have hxlen : x < t.length := by rw [← hxw]; exact hjlen
        have hcontrib : contrib nTips t e = contrib nTips t' e := by
          unfold contrib
          split
          · rename_i hc
            obtain ⟨hc0, hclen⟩ := hcb hc
            have hstab := processEdges_stable h e.2 (by omega)
              (fun f hf => hbu1 hc f (List.mem_cons_of_mem _ hf))
            have hne : (e.1 - 1).toNat ≠ (e.2 - 1).toNat := by
              have h2 := hbu1 hc e (List.mem_cons_self e rest)
              omega
            rw [hstab, entry_set_ne hne]
          · rfl
        have hfil : (e :: rest).filter (fun f => f.1 == (x : Int) + 1) =
            e :: rest.filter (fun f => f.1 == (x : Int) + 1) :=
          List.filter_cons_of_pos (by simpa using hpx)
        rw [hfil, List.map_cons, List.flatten_cons, hIH, hxw,
          entry_set_self hxlen, hcontrib, List.append_assoc]
      · have hne : (e.1 - 1).toNat ≠ x := by omega
        have hfil : (e :: rest).filter (fun f => f.1 == (x : Int) + 1) =
            rest.filter (fun f => f.1 == (x : Int) + 1) :=
          List.filter_cons_of_neg (by simpa using hpx)
        rw [hfil, hIH, entry_set_ne hne]

theorem seedLoop_cons_of_lt {t : List (List Int)} {i : Nat} {rest : List Nat}
    (hi : i < t.length) :
    seedLoop t (i :: rest) =
      seedLoop (t.set i (entry t i ++ [(i : Int) + 1])) rest := by
  have hc : (0 ≤ (i : Int) ∧ i < t.length) = True :=
    eq_true ⟨Int.natCast_nonneg i, hi⟩
  simp only [seedLoop, getAt, setAt, Int.toNat_natCast, hc, if_true]

theorem seedLoop_cons_of_ge {t : List (List Int)} {i : Nat} {rest : List Nat}
    (hi : t.length ≤ i) : seedLoop t (i :: rest) = none := by
  have hc : (0 ≤ (i : Int) ∧ i < t.length) = False :=
    eq_false fun hx => absurd hx.2 (Nat.not_lt.mpr hi)
  simp only [seedLoop, getAt, Int.toNat_natCast, hc, if_false]

theorem seedLoop_some :
    ∀ {l : List Nat} {t : List (List Int)},
      (∀ i ∈ l, i < t.length) → l.Nodup →
      ∃ t', seedLoop t l = some t' ∧ t'.length = t.length ∧
        (∀ x ∈ l, entry t' x = entry t x ++ [(x : Int) + 1]) ∧
        ∀ x : Nat, x ∉ l → entry t' x = entry t x
  | [], t, _, _ => ⟨t, rfl, rfl, by simp, fun _ _ => rfl⟩
  | i :: rest, t, hb, hnd => by
      have hi : i < t.length := hb i (List.mem_cons_self i rest)
      have hni : i ∉ rest := (List.nodup_cons.mp hnd).1
      obtain ⟨t', h1, h2, h3, h4⟩ := seedLoop_some (l := rest)
        (t := t.set i (entry t i ++ [(i : Int) + 1]))
        (fun j hj => by simpa using hb j (List.mem_cons_of_mem _ hj))
        (List.nodup_cons.mp hnd).2
      refine ⟨t', ?_, by simpa using h2, ?_, ?_⟩
      · rw [seedLoop_cons_of_lt hi]; exact h1
      · intro x hx
        rcases List.mem_cons.mp hx with rfl | hx'
        · rw [h4 x hni, entry_set_self hi]
        · rw [h3 x hx', entry_set_ne (fun h => hni (by rw [h]; exact hx'))]
      · intro x hx
        rw [h4 x (fun h => hx (List.mem_cons_of_mem _ h)),
          entry_set_ne (fun h => hx (by rw [← h]; exact List.mem_cons_self i rest))]

theorem seedLoop_append_some :
    ∀ {l1 : List Nat} {t t1 : List (List Int)} (l2 : List Nat),
      seedLoop t l1 = some t1 →
      seedLoop t (l1 ++ l2) = seedLoop t1 l2
  | [], t, t1, l2, h => by
      simp only [seedLoop, Option.some.injEq] at h
      rw [List.nil_append, h]
  | i :: rest, t, t1, l2, h => by
      rw [List.cons_append]
      rcases hg : getAt t (i : Int) with _ | cur
      · rw [seedLoop, hg] at h; exact absurd h (by simp)
      rcases hs : setAt t (i : Int) (cur ++ [(i : Int) + 1]) with _ | t2
      · simp only [seedLoop, hg, hs] at h
        exact absurd h (by simp)
      · simp only [seedLoop, hg, hs] at h ⊢
        exact seedLoop_append_some l2 h

theorem seedTips_some {t : List (List Int)} {nTips : Int}
    (h : nTips.toNat ≤ t.length) :
    ∃ t', seedTips t nTips = some t' ∧ t'.length = t.length ∧
      ∀ x : Nat, entry t' x =
        if x < nTips.toNat then entry t x ++ [(x : Int) + 1] else entry t x := by
  obtain ⟨t', h1, h2, h3, h4⟩ := seedLoop_some (l := List.range nTips.toNat)
    (t := t) (fun i hi => lt_of_lt_of_le (List.mem_range.mp hi) h)
    (List.nodup_range _)
  refine ⟨t', h1, h2, fun x => ?_⟩
  by_cases hx : x < nTips.toNat
  · rw [if_pos hx]; exact h3 x (List.mem_range.mpr hx)
  · rw [if_neg hx]; exact h4 x (fun hc => hx (List.mem_range.mp hc))

theorem seedTips_none {t : List (List Int)} {nTips : Int}
    (h : t.length < nTips.toNat) : seedTips t nTips = none := by
  obtain ⟨k, hk⟩ : ∃ k, nTips.toNat = t.length + (k + 1) :=
    ⟨nTips.toNat - t.length - 1, by omega⟩
  obtain ⟨t1, h1, hlen1, _, _⟩ := seedLoop_some (l := List.range t.length)
    (t := t) (fun i hi => List.mem_range.mp hi) (List.nodup_range _)
  unfold seedTips
  rw [hk, List.range_add, seedLoop_append_some _ h1]
  simp only [List.range_succ_eq_map, List.map_cons, Nat.add_zero]
  exact seedLoop_cons_of_ge (by omega)

theorem mem_upTo {n i : Int} : i ∈ upTo n ↔ 1 ≤ i ∧ i ≤ n := by
  unfold upTo
  constructor
  · intro h
    obtain ⟨k, hk, hki⟩ := List.mem_map.mp h
    have hk2 : k < n.toNat := List.mem_range.mp hk
    have hki2 : (k : Int) + 1 = i := hki
    omega
  · rintro ⟨h1, h2⟩
    refine List.mem_map.mpr ⟨(i - 1).toNat, List.mem_range.mpr (by omega), ?_⟩
    show ((i - 1).toNat : Int) + 1 = i
    omega

theorem upTo_sorted {n : Int} : (upTo n).Sorted (· ≤ ·) := by
  unfold upTo
  refine List.Pairwise.map _ (fun a b h => ?_) (List.pairwise_lt_range _)
  have h2 : a < b := h
  show (a : Int) + 1 ≤ (b : Int) + 1
  omega

theorem upTo_nodup {n : Int} : (upTo n).Nodup := by
  unfold upTo
  refine List.Nodup.map (fun a b hab => ?_) (List.nodup_range _)
  have h2 : (a : Int) + 1 = (b : Int) + 1 := hab
  omega

theorem le_foldl_max (xs : List Int) :
    ∀ a : Int, a ≤ xs.foldl max a ∧ ∀ x ∈ xs, x ≤ xs.foldl max a := by
  induction xs with
  | nil => exact fun a => ⟨le_refl a, by simp⟩
  | cons y ys ih =>
      intro a
      simp only [List.foldl_cons]
      refine ⟨le_trans (le_max_left a y) (ih (max a y)).1, ?_⟩
      intro x hx
      rcases List.mem_cons.mp hx with rfl | hx'
      · exact le_trans (le_max_right a x) (ih (max a x)).1
      · exact (ih (max a y)).2 x hx'

theorem rcppMax_eq_maxParent {edges : List (Int × Int)} (h : edges ≠ []) :
    rcppMax (edges.map Prod.fst) = some (maxParent edges) := by
  cases edges with
  | nil => exact absurd rfl h
  | cons e rest => simp [rcppMax, maxParent]

theorem mem_le_maxParent {edges : List (Int × Int)} {f : Int × Int}
    (hf : f ∈ edges) : f.1 ≤ maxParent edges := by
  cases edges with
  | nil => exact absurd hf (by simp)
  | cons e rest =>
      have h := le_foldl_max (rest.map Prod.fst) e.1
      rcases List.mem_cons.mp hf with rfl | hf'
      · simpa [maxParent, rcppMax] using h.1
      · simpa [maxParent, rcppMax] using h.2 f.1 (List.mem_map_of_mem _ hf')

theorem validTree_facts {edges : List (Int × Int)} {nTips : Int}
    (h : validTree edges nTips = true) :
    edges ≠ [] ∧ 0 < nTips ∧ nTips ≤ maxParent edges ∧
      (∀ f ∈ edges, 1 ≤ f.2 ∧ f.2 ≤ maxParent edges ∧ nTips < f.1) ∧
      (∀ i : Int, nTips < i → i ≤ maxParent edges → ∃ f ∈ edges, f.1 = i) ∧
      (edges.map Prod.snd).Nodup ∧ bottomUpB nTips edges = true := by
  unfold validTree at h
  simp only [Bool.and_eq_true, Bool.not_eq_true', List.all_eq_true,
    decide_eq_true_eq, Bool.or_eq_true, List.any_eq_true, beq_iff_eq] at h
  obtain ⟨⟨⟨⟨⟨⟨hne, hpos⟩, hle⟩, hall⟩, hcov⟩, hnd⟩, hbu⟩ := h
  refine ⟨?_, hpos, hle, fun f hf => ?_, ?_, hnd, hbu⟩
  · intro hnil
    rw [hnil] at hne
    exact absurd hne (by simp)
  · obtain ⟨⟨h1, h2⟩, h3⟩ := hall f hf
    exact ⟨h1, h2, h3⟩
  · intro i h1 h2
    have hin : i ∈ upTo (maxParent edges) := mem_upTo.mpr ⟨by omega, h2⟩
    rcases hcov i hin with h3 | ⟨f, hf, hfi⟩
    · omega
    · exact ⟨f, hf, hfi⟩

theorem rootedTree_facts {edges : List (Int × Int)} {nTips : Int}
    (h : rootedTree edges nTips = true) :
    validTree edges nTips = true ∧
      (∀ a : Int, 1 ≤ a → a < maxParent edges → ∃ f ∈ edges, f.2 = a) ∧
      ∀ f ∈ edges, f.2 ≠ maxParent edges := by
  unfold rootedTree at h
  simp only [Bool.and_eq_true, List.all_eq_true] at h
  obtain ⟨⟨hv, hcov⟩, hroot⟩ := h
  refine ⟨hv, ?_, fun f hf => by simpa using hroot f hf⟩
  intro a h1 h2
  have h3 := hcov a (mem_upTo.mpr ⟨h1, le_of_lt h2⟩)
  simp only [Bool.or_eq_true, decide_eq_true_eq, List.any_eq_true,
    beq_iff_eq] at h3
  rcases h3 with h3 | ⟨f, hf, hfa⟩
  · omega
  · exact ⟨f, hf, hfa⟩

theorem bip_run {edges : List (Int × Int)} {nTips : Int}
    (h : validTree edges nTips = true) :
    ∃ s t2 : List (List Int),
      seedTips (List.replicate (maxParent edges).toNat []) nTips = some s ∧
      s.length = (maxParent edges).toNat ∧
      (∀ x : Nat, entry s x = if x < nTips.toNat then [(x : Int) + 1] else []) ∧
      processEdges nTips s edges = some t2 ∧
      t2.length = (maxParent edges).toNat ∧
      bipCPP edges nTips = Outcome.ok (t2.map (List.insertionSort (· ≤ ·))) := by
  obtain ⟨hne, hpos, hle, hall, hcov, hnd, hbu⟩ := validTree_facts h
  have hm : 0 < maxParent edges := lt_of_lt_of_le hpos hle
  have hlen : (List.replicate (maxParent edges).toNat ([] : List Int)).length =
      (maxParent edges).toNat := by simp
  have hbnd : nTips.toNat ≤
      (List.replicate (maxParent edges).toNat ([] : List Int)).length := by
    rw [hlen]; omega
  obtain ⟨s, hs1, hs2, hs3⟩ := seedTips_some hbnd
  have hslen : s.length = (maxParent edges).toNat := by rw [hs2, hlen]
  have hseed : ∀ x : Nat, entry s x =
      if x < nTips.toNat then [(x : Int) + 1] else [] := by
    intro x
    rw [hs3 x]
    simp [entry_replicate]
  have hbnd2 : ∀ f ∈ edges, (0 ≤ f.1 - 1 ∧ (f.1 - 1).toNat < s.length) ∧
      (nTips < f.2 → 0 ≤ f.2 - 1 ∧ (f.2 - 1).toNat < s.length) := by
    intro f hf
    have h1 := hall f hf
    have h2 := mem_le_maxParent hf
    exact ⟨⟨by omega, by omega⟩, fun h3 => ⟨by omega, by omega⟩⟩
  obtain ⟨t2, ht2⟩ := processEdges_some_of_bounds hbnd2
  have htlen : t2.length = (maxParent edges).toNat :=
    (processEdges_length ht2).trans hslen
  have hmne : ¬ maxParent edges < 0 := by omega
  refine ⟨s, t2, hs1, hslen, hseed, ht2, htlen, ?_⟩
  unfold bipCPP
  rw [rcppMax_eq_maxParent hne]
  simp only [hmne, if_false, hs1, ht2]

theorem tip_entry_final {edges : List (Int × Int)} {nTips : Int}
    {s t2 : List (List Int)} (hall : ∀ f ∈ edges, nTips < f.1)
    (hseed : ∀ x : Nat,
      entry s x = if x < nTips.toNat then [(x : Int) + 1] else [])
    (ht2 : processEdges nTips s edges = some t2)
    {c : Int} (h1 : 1 ≤ c) (h2 : c ≤ nTips) :
    entry t2 (c - 1).toNat = [c] := by
  have hstab := processEdges_stable ht2 c h1
    (fun f hf => by have h3 := hall f hf; omega)
  rw [hstab, hseed, if_pos (by omega)]
  congr 2
  omega

theorem processEdges_content {nTips : Int} :
    ∀ {edges : List (Int × Int)} {t t' : List (List Int)},
      processEdges nTips t edges = some t' →
      (∀ f ∈ edges, f.2 ≤ nTips → 1 ≤ f.2) →
      (∀ x : Nat, ∀ v ∈ entry t x, 1 ≤ v ∧ v ≤ nTips) →
      ∀ x : Nat, ∀ v ∈ entry t' x, 1 ≤ v ∧ v ≤ nTips
  | [], t, t', h => by
      simp only [processEdges, Option.some.injEq] at h
      intro _ hinit x v hv
      rw [← h] at hv
      exact hinit x v hv
  | e :: rest, t, t', h => by
      intro hpos hinit
      rw [processEdges] at h
      rcases h1 : processEdge nTips t e with _ | t1 <;> rw [h1] at h
      · exact absurd h (by simp)
      obtain ⟨⟨hj0, hjlen⟩, hcb, rfl⟩ := processEdge_some.mp h1
      refine processEdges_content h
        (fun f hf => hpos f (List.mem_cons_of_mem _ hf)) ?_
      intro x v hv
      by_cases hx : x = (e.1 - 1).toNat
      · subst hx
        rw [entry_set_self hjlen] at hv
        rcases List.mem_append.mp hv with hv' | hv'
        · exact hinit _ v hv'
        · unfold contrib at hv'
          split at hv'
          · exact hinit _ v hv'
          · rename_i hc
            have hv2 : v = e.2 := List.mem_singleton.mp hv'
            subst hv2
            exact ⟨hpos e (List.mem_cons_self e rest) (not_lt.mp hc),
              not_lt.mp hc⟩
      · rw [entry_set_ne (fun hh => hx hh.symm)] at hv
        exact hinit x v hv

theorem processEdges_nodup {nTips : Int} :
    ∀ {edges : List (Int × Int)} {t t' : List (List Int)} (live : Int → Prop),
      processEdges nTips t edges = some t' →
      bottomUpB nTips edges = true →
      (edges.map Prod.snd).Nodup →
      (∀ f ∈ edges, nTips < f.1) →
      (∀ f ∈ edges, live f.1 ∧ live f.2) →
      (∀ a, live a → 1 ≤ a) →
      (∀ x : Nat, (entry t x).Nodup) →
      (∀ a b, live a → live b → a ≠ b →
        ∀ v, v ∈ entry t (a - 1).toNat → v ∉ entry t (b - 1).toNat) →
      (∀ c, live c → c ≤ nTips → ∀ x : Nat, c ∈ entry t x → x = (c - 1).toNat) →
      ∀ x : Nat, (entry t' x).Nodup
  | [], t, t', live, h => by
      simp only [processEdges, Option.some.injEq] at h
      intro _ _ _ _ _ hA _ _ x
      rw [← h]
      exact hA x
  | e :: rest, t, t', live, h => by
      intro hbu hnd hpar hedge hlivepos hA hB hC
      rw [processEdges] at h
      rcases h1 : processEdge nTips t e with _ | t1 <;> rw [h1] at h
      · exact absurd h (by simp)
      obtain ⟨⟨hj0, hjlen⟩, hcb, rfl⟩ := processEdge_some.mp h1
      obtain ⟨hbu1, hbu2⟩ := bottomUpB_cons.mp hbu
      have hndc : e.2 ∉ rest.map Prod.snd := by
        rw [List.map_cons] at hnd
        exact (List.nodup_cons.mp hnd).1
      have hnd2 : (rest.map Prod.snd).Nodup := by
        rw [List.map_cons] at hnd
        exact (List.nodup_cons.mp hnd).2
      have hqint : nTips < e.1 := hpar e (List.mem_cons_self e rest)
      obtain ⟨hqlive, hclive⟩ := hedge e (List.mem_cons_self e rest)
      have hq1 : 1 ≤ e.1 := hlivepos _ hqlive
      have hc1 : 1 ≤ e.2 := hlivepos _ hclive
      have hqc : e.1 ≠ e.2 := by
        rcases lt_or_le nTips e.2 with hcint | hctip
        · exact hbu1 hcint e (List.mem_cons_self e rest)
        · omega
      have hcnotq : ∀ v ∈ contrib nTips t e, v ∉ entry t (e.1 - 1).toNat := by
        intro v hv hvq
        unfold contrib at hv
        split at hv
        · rename_i hcint
          exact hB e.2 e.1 hclive hqlive (Ne.symm hqc) v hv hvq
        · rename_i hcint
          have hv2 : v = e.2 := List.mem_singleton.mp hv
          rw [hv2] at hvq
          have hxc := hC e.2 hclive (not_lt.mp hcint) _ hvq
          omega
      have hcontrib_nodup : (contrib nTips t e).Nodup := by
        unfold contrib
        split
        · exact hA _
        · simp
      have hw_nodup : (entry t (e.1 - 1).toNat ++ contrib nTips t e).Nodup :=
        List.Nodup.append (hA _) hcontrib_nodup
          (fun v hv1 hv2 => hcnotq v hv2 hv1)
      refine processEdges_nodup (fun b => live b ∧ b ≠ e.2) h hbu2 hnd2
        (fun f hf => hpar f (List.mem_cons_of_mem _ hf)) ?_
        (fun a ha => hlivepos a ha.1) ?_ ?_ ?_
      · intro f hf
        obtain ⟨hfq, hfc⟩ := hedge f (List.mem_cons_of_mem _ hf)
        refine ⟨⟨hfq, ?_⟩, ⟨hfc, ?_⟩⟩
        · rcases lt_or_le nTips e.2 with hcint | hctip
          · exact hbu1 hcint f (List.mem_cons_of_mem _ hf)
          · have hfint := hpar f (List.mem_cons_of_mem _ hf)
            omega
        · intro hfe
          exact hndc (hfe ▸ List.mem_map_of_mem Prod.snd hf)
      · intro x
        by_cases hx : x = (e.1 - 1).toNat
        · subst hx
          rw [entry_set_self hjlen]
          exact hw_nodup
        · rw [entry_set_ne (fun hh => hx hh.symm)]
          exact hA x
      · rintro a b ⟨ha, hac⟩ ⟨hb, hbc⟩ hab v hva hvb
        have ha1 : 1 ≤ a := hlivepos a ha
        have hb1 : 1 ≤ b := hlivepos b hb
        by_cases haq : a = e.1
        · subst haq
          have hbw : (e.1 - 1).toNat ≠ (b - 1).toNat := by omega
          rw [entry_set_self hjlen] at hva
          rw [entry_set_ne hbw] at hvb
          rcases List.mem_append.mp hva with hva' | hva'
          · exact hB e.1 b ha hb hab v hva' hvb
          · unfold contrib at hva'
            split at hva'
            · rename_i hcint
              exact hB e.2 b hclive hb (Ne.symm hbc) v hva' hvb
            · rename_i hcint
              have hv2 : v = e.2 := List.mem_singleton.mp hva'
              rw [hv2] at hvb
              have hxc := hC e.2 hclive (not_lt.mp hcint) _ hvb
              omega
        · have haw : (e.1 - 1).toNat ≠ (a - 1).toNat := by omega
          rw [entry_set_ne haw] at hva
          by_cases hbq : b = e.1
          · subst hbq
            rw [entry_set_self hjlen] at hvb
            rcases List.mem_append.mp hvb with hvb' | hvb'
            · exact hB a e.1 ha hb hab v hva hvb'
            · unfold contrib at hvb'
              split at hvb'
              · rename_i hcint
                exact hB a e.2 ha hclive hac v hva hvb'
              · rename_i hcint
                have hv2 : v = e.2 := List.mem_singleton.mp hvb'
                rw [hv2] at hva
                have hxc := hC e.2 hclive (not_lt.mp hcint) _ hva
                omega
          · have hbw : (e.1 - 1).toNat ≠ (b - 1).toNat := by omega
            rw [entry_set_ne hbw] at hvb
            exact hB a b ha hb hab v hva hvb
      · rintro c ⟨hcl, hcne⟩ hctip x hcx
        have hc2 : 1 ≤ c := hlivepos c hcl
        by_cases hx : x = (e.1 - 1).toNat
        · subst hx
          rw [entry_set_self hjlen] at hcx
          rcases List.mem_append.mp hcx with hcx' | hcx'
          · exact hC c hcl hctip _ hcx'
          · unfold contrib at hcx'
            split at hcx'
            · rename_i hcint
              have hxc := hC c hcl hctip _ hcx'
              omega
            · rename_i hcint
              have hv2 : c = e.2 := List.mem_singleton.mp hcx'
              exact absurd hv2 hcne
        · rw [entry_set_ne (fun hh => hx hh.symm)] at hcx
          exact hC c hcl hctip x hcx

theorem processEdges_tip_kept {nTips : Int} :
    ∀ {edges : List (Int × Int)} {t t' : List (List Int)} (live : Int → Prop),
      processEdges nTips t edges = some t' →
      bottomUpB nTips edges = true →
      (edges.map Prod.snd).Nodup →
      (∀ f ∈ edges, nTips < f.1) →
      (∀ f ∈ edges, live f.1 ∧ live f.2) →
      (∀ a, live a → 1 ≤ a) →
      (∀ c, live c → c ≤ nTips → ∀ x : Nat, c ∈ entry t x → x = (c - 1).toNat) →
      (∀ c, live c → c ≤ nTips → entry t (c - 1).toNat = [c]) →
      ∀ v a, live a → v ∈ entry t (a - 1).toNat →
        ∃ b, live b ∧ (∀ f ∈ edges, f.2 ≠ b) ∧ v ∈ entry t' (b - 1).toNat
  | [], t, t', live, h => by
      simp only [processEdges, Option.some.injEq] at h
      intro _ _ _ _ _ _ _ v a ha hva
      rw [← h]
      exact ⟨a, ha, by simp, hva⟩
  | e :: rest, t, t', live, h => by
      intro hbu hnd hpar hedge hlivepos hC hD v a ha hva
      rw [processEdges] at h
      rcases h1 : processEdge nTips t e with _ | t1 <;> rw [h1] at h
      · exact absurd h (by simp)
      obtain ⟨⟨hj0, hjlen⟩, hcb, rfl⟩ := processEdge_some.mp h1
      obtain ⟨hbu1, hbu2⟩ := bottomUpB_cons.mp hbu
      have hndc : e.2 ∉ rest.map Prod.snd := by
        rw [List.map_cons] at hnd
        exact (List.nodup_cons.mp hnd).1
      have hnd2 : (rest.map Prod.snd).Nodup := by
        rw [List.map_cons] at hnd
        exact (List.nodup_cons.mp hnd).2
      have hqint : nTips < e.1 := hpar e (List.mem_cons_self e rest)
      obtain ⟨hqlive, hclive⟩ := hedge e (List.mem_cons_self e rest)
      have hq1 : 1 ≤ e.1 := hlivepos _ hqlive
      have hc1 : 1 ≤ e.2 := hlivepos _ hclive
      have hqc : e.1 ≠ e.2 := by
        rcases lt_or_le nTips e.2 with hcint | hctip
        · exact hbu1 hcint e (List.mem_cons_self e rest)
        · omega
      have hpar2 : ∀ f ∈ rest, nTips < f.1 :=
        fun f hf => hpar f (List.mem_cons_of_mem _ hf)
      have hedge2 : ∀ f ∈ rest,
          (live f.1 ∧ f.1 ≠ e.2) ∧ (live f.2 ∧ f.2 ≠ e.2) := by
        intro f hf
        obtain ⟨hfq, hfc⟩ := hedge f (List.mem_cons_of_mem _ hf)
        refine ⟨⟨hfq, ?_⟩, ⟨hfc, ?_⟩⟩
        · rcases lt_or_le nTips e.2 with hcint | hctip
          · exact hbu1 hcint f (List.mem_cons_of_mem _ hf)
          · have hfint := hpar f (List.mem_cons_of_mem _ hf)
            omega
        · intro hfe
          exact hndc (hfe ▸ List.mem_map_of_mem Prod.snd hf)
      have hlive2 : ∀ b, (live b ∧ b ≠ e.2) → 1 ≤ b :=
        fun b hb => hlivepos b hb.1
      have hC2 : ∀ c, (live c ∧ c ≠ e.2) → c ≤ nTips → ∀ x : Nat,
          c ∈ entry (t.set (e.1 - 1).toNat
            (entry t (e.1 - 1).toNat ++ contrib nTips t e)) x →
          x = (c - 1).toNat := by
        rintro c ⟨hcl, hcne⟩ hctip x hcx
        have hc2 : 1 ≤ c := hlivepos c hcl
        by_cases hx : x = (e.1 - 1).toNat
        · subst hx
          rw [entry_set_self hjlen] at hcx
          rcases List.mem_append.mp hcx with hcx' | hcx'
          · exact hC c hcl hctip _ hcx'
          · unfold contrib at hcx'
            split at hcx'
            · rename_i hcint
              have hxc := hC c hcl hctip _ hcx'
              omega
            · rename_i hcint
              have hv2 : c = e.2 := List.mem_singleton.mp hcx'
              exact absurd hv2 hcne
        · rw [entry_set_ne (fun hh => hx hh.symm)] at hcx
          exact hC c hcl hctip x hcx
      have hD2 : ∀ c, (live c ∧ c ≠ e.2) → c ≤ nTips →
          entry (t.set (e.1 - 1).toNat
            (entry t (e.1 - 1).toNat ++ contrib nTips t e)) (c - 1).toNat
            = [c] := by
        rintro c ⟨hcl, _⟩ hctip
        have hc2 : 1 ≤ c := hlivepos c hcl
        have hne2 : (e.1 - 1).toNat ≠ (c - 1).toNat := by omega
        rw [entry_set_ne hne2]
        exact hD c hcl hctip
      by_cases hae : a = e.2
      · have hv1 : v ∈ entry (t.set (e.1 - 1).toNat
            (entry t (e.1 - 1).toNat ++ contrib nTips t e)) (e.1 - 1).toNat := by
          rw [entry_set_self hjlen]
          refine List.mem_append.mpr (Or.inr ?_)
          unfold contrib
          split
          · rename_i hcint
            rw [← hae]
            exact hva
          · rename_i hcint
            have hatip : a ≤ nTips := by omega
            have hDa := hD a ha hatip
            rw [hDa] at hva
            have hv2 : v = a := List.mem_singleton.mp hva
            rw [hv2, hae]
            exact List.mem_singleton.mpr rfl
        obtain ⟨b, hb, hbrest, hbv⟩ := processEdges_tip_kept
          (fun b => live b ∧ b ≠ e.2) h hbu2 hnd2 hpar2 hedge2 hlive2 hC2 hD2
          v e.1 ⟨hqlive, hqc⟩ hv1
        refine ⟨b, hb.1, ?_, hbv⟩
        intro f hf
        rcases List.mem_cons.mp hf with rfl | hf'
        · exact fun hh => hb.2 hh.symm
        · exact hbrest f hf'
      · have hv1 : v ∈ entry (t.set (e.1 - 1).toNat
            (entry t (e.1 - 1).toNat ++ contrib nTips t e)) (a - 1).toNat := by
          by_cases haq : a = e.1
          · rw [haq] at hva ⊢
            rw [entry_set_self hjlen]
            exact List.mem_append.mpr (Or.inl hva)
          · have ha1 : 1 ≤ a := hlivepos a ha
            have hne2 : (e.1 - 1).toNat ≠ (a - 1).toNat := by omega
            rw [entry_set_ne hne2]
            exact hva
        obtain ⟨b, hb, hbrest, hbv⟩ := processEdges_tip_kept
          (fun b => live b ∧ b ≠ e.2) h hbu2 hnd2 hpar2 hedge2 hlive2 hC2 hD2
          v a ⟨ha, hae⟩ hv1
        refine ⟨b, hb.1, ?_, hbv⟩
        intro f hf
        rcases List.mem_cons.mp hf with rfl | hf'
        · exact fun hh => hb.2 hh.symm
        · exact hbrest f hf'

theorem insertionSort_eq_of_sorted_nodup {l r : List Int}
    (hnd : l.Nodup) (hrs : r.Sorted (· ≤ ·)) (hrnd : r.Nodup)
    (hmem : ∀ v, v ∈ l ↔ v ∈ r) :
    List.insertionSort (· ≤ ·) l = r := by
  apply List.eq_of_perm_of_sorted ?_ (List.sorted_insertionSort _ l) hrs
  refine (List.perm_ext_iff_of_nodup ?_ hrnd).mpr ?_
  · exact (List.perm_insertionSort _ l).nodup_iff.mpr hnd
  · intro v
    rw [List.mem_insertionSort]
    exact hmem v

theorem mem_foldr_union {v : Int} :
    ∀ {L : List (Finset Int)}, v ∈ L.foldr (· ∪ ·) ∅ ↔ ∃ s ∈ L, v ∈ s
  | [] => by simp
  | s :: L => by
      simp only [List.foldr_cons, Finset.mem_union,
        mem_foldr_union (L := L), List.mem_cons]
      constructor
      · rintro (hv | ⟨s2, hs2, hv⟩)
        · exact ⟨s, Or.inl rfl, hv⟩
        · exact ⟨s2, Or.inr hs2, hv⟩
      · rintro ⟨s2, hs2 | hs2, hv⟩
        · exact Or.inl (hs2 ▸ hv)
        · exact Or.inr ⟨s2, hs2, hv⟩

theorem mem_childUnion {res : List (List Int)} {edges : List (Int × Int)}
    {i v : Int} :
    v ∈ childUnion res edges i ↔
      ∃ f ∈ edges.filter (fun f => f.1 == i), v ∈ resultFor res f.2 := by
  unfold childUnion
  rw [mem_foldr_union]
  constructor
  · rintro ⟨s, hs, hv⟩
    obtain ⟨f, hf, rfl⟩ := List.mem_map.mp hs
    exact ⟨f, hf, List.mem_toFinset.mp hv⟩
  · rintro ⟨f, hf, hv⟩
    exact ⟨(resultFor res f.2).toFinset, List.mem_map_of_mem _ hf,
      List.mem_toFinset.mpr hv⟩

theorem seed_entry_nodup {s : List (List Int)} {nTips : Int}
    (hseed : ∀ x : Nat,
      entry s x = if x < nTips.toNat then [(x : Int) + 1] else []) :
    ∀ x : Nat, (entry s x).Nodup := by
  intro x
  rw [hseed]
  split <;> simp

theorem seed_entry_disjoint {s : List (List Int)} {nTips : Int}
    (hseed : ∀ x : Nat,
      entry s x = if x < nTips.toNat then [(x : Int) + 1] else [])
    (a b : Int) (ha : 1 ≤ a) (hb : 1 ≤ b) (hab : a ≠ b) :
    ∀ v, v ∈ entry s (a - 1).toNat → v ∉ entry s (b - 1).toNat := by
  intro v hva hvb
  rw [hseed] at hva hvb
  split at hva
  · rename_i h3
    have hva2 : v = (((a - 1).toNat : Int)) + 1 := List.mem_singleton.mp hva
    split at hvb
    · rename_i h4
      have hvb2 : v = (((b - 1).toNat : Int)) + 1 := List.mem_singleton.mp hvb
      omega
    · exact absurd hvb (by simp)
  · exact absurd hva (by simp)

theorem seed_entry_localized {s : List (List Int)} {nTips : Int}
    (hseed : ∀ x : Nat,
      entry s x = if x < nTips.toNat then [(x : Int) + 1] else [])
    (c : Int) (hc : 1 ≤ c) (hctip : c ≤ nTips) :
    ∀ x : Nat, c ∈ entry s x → x = (c - 1).toNat := by
  intro x hcx
  rw [hseed] at hcx
  split at hcx
  · rename_i h3
    have hc2 : c = ((x : Int)) + 1 := List.mem_singleton.mp hcx
    omega
  · exact absurd hcx (by simp)

theorem seed_entry_tip {s : List (List Int)} {nTips : Int}
    (hseed : ∀ x : Nat,
      entry s x = if x < nTips.toNat then [(x : Int) + 1] else [])
    (c : Int) (hc : 1 ≤ c) (hctip : c ≤ nTips) :
    entry s (c - 1).toNat = [c] := by
  rw [hseed, if_pos (by omega)]
  congr 2
  omega

/-- C1: for every valid tree input and every internal node id `i`, the
returned descendant list of `i` equals the union of the returned
descendant sets of its children over all edges `(i, c)`, sorted
ascending, with no duplicates. -/
theorem bip_internal_union {edges : List (Int × Int)} {nTips : Int}
    (hv : validTree edges nTips = true) :
    ∃ res, bipCPP edges nTips = Outcome.ok res ∧
      ∀ i : Int, nTips < i → i ≤ maxParent edges →
        resultFor res i = (childUnion res edges i).sort (· ≤ ·) := by
  obtain ⟨hne, hpos, hle, hall, hcov, hnd, hbu⟩ := validTree_facts hv
  obtain ⟨s, t2, hs1, hslen, hseed, ht2, htlen, hbip⟩ := bip_run hv
  refine ⟨t2.map (List.insertionSort (· ≤ ·)), hbip, ?_⟩
  have hnodup : ∀ x : Nat, (entry t2 x).Nodup :=
    processEdges_nodup (fun a => 1 ≤ a) ht2 hbu hnd
      (fun f hf => (hall f hf).2.2)
      (fun f hf => ⟨by have h3 := (hall f hf).2.2; omega, (hall f hf).1⟩)
      (fun a ha => ha) (seed_entry_nodup hseed)
      (fun a b ha hb => seed_entry_disjoint hseed a b ha hb)
      (fun c hc => seed_entry_localized hseed c hc)
  have hbridge : ∀ f ∈ edges, ∀ v : Int,
      v ∈ contrib nTips t2 f ↔
        v ∈ resultFor (t2.map (List.insertionSort (· ≤ ·))) f.2 := by
    intro f hfe v
    rw [resultFor, entry_map_sort, List.mem_insertionSort]
    unfold contrib
    split
    · exact Iff.rfl
    · rename_i hcint
      rw [tip_entry_final (fun g hg => (hall g hg).2.2) hseed ht2
        (hall f hfe).1 (not_lt.mp hcint)]
  intro i h1 h2
  have hjoin := processEdges_join hbu ht2 (i - 1).toNat
  have hix : (((i - 1).toNat : Int)) + 1 = i := by omega
  have hseedi : entry s (i - 1).toNat = [] := by
    rw [hseed, if_neg (by omega)]
  simp only [hix] at hjoin
  rw [hseedi, List.nil_append] at hjoin
  rw [resultFor, entry_map_sort]
  apply insertionSort_eq_of_sorted_nodup (hnodup _)
    (Finset.sort_sorted _ _) (Finset.sort_nodup _ _)
  intro v
  rw [Finset.mem_sort, mem_childUnion, hjoin, List.mem_flatten]
  constructor
  · rintro ⟨l, hl, hvl⟩
    obtain ⟨f, hf, rfl⟩ := List.mem_map.mp hl
    exact ⟨f, hf, (hbridge f (List.mem_of_mem_filter hf) v).mp hvl⟩
  · rintro ⟨f, hf, hvf⟩
    exact ⟨contrib nTips t2 f, List.mem_map_of_mem _ hf,
      (hbridge f (List.mem_of_mem_filter hf) v).mpr hvf⟩

/-- Witness for C1 at Scenario B: edges (4,1),(4,2),(5,3),(5,4) with
nTips = 3 form a valid tree, and the internal-union property holds. -/
theorem bip_internal_union_witness :
    validTree [((4 : Int), (1 : Int)), (4, 2), (5, 3), (5, 4)] 3 = true ∧
    ∃ res, bipCPP [((4 : Int), (1 : Int)), (4, 2), (5, 3), (5, 4)] 3 =
        Outcome.ok res ∧
      ∀ i : Int, 3 < i →
        i ≤ maxParent [((4 : Int), (1 : Int)), (4, 2), (5, 3), (5, 4)] →
        resultFor res i =
          (childUnion res [((4 : Int), (1 : Int)), (4, 2), (5, 3), (5, 4)]
            i).sort (· ≤ ·) :=
  ⟨by decide, bip_internal_union (by decide)⟩

/-- C4: for every valid tree input and every tip id `i` in `1 .. nTips`,
the returned descendant list of `i` is exactly `[i]`. -/
theorem bip_tip_singleton {edges : List (Int × Int)} {nTips : Int}
    (hv : validTree edges nTips = true) :
    ∃ res, bipCPP edges nTips = Outcome.ok res ∧
      ∀ i : Int, 1 ≤ i → i ≤ nTips → resultFor res i = [i] := by
  obtain ⟨hne, hpos, hle, hall, hcov, hnd, hbu⟩ := validTree_facts hv
  obtain ⟨s, t2, hs1, hslen, hseed, ht2, htlen, hbip⟩ := bip_run hv
  refine ⟨_, hbip, ?_⟩
  intro i h1 h2
  rw [resultFor, entry_map_sort,
    tip_entry_final (fun f hf => (hall f hf).2.2) hseed ht2 h1 h2]
  simp [List.insertionSort, List.orderedInsert]

/-- Witness for C4 at Scenario B. -/
theorem bip_tip_singleton_witness :
    validTree [((4 : Int), (1 : Int)), (4, 2), (5, 3), (5, 4)] 3 = true ∧
    ∃ res, bipCPP [((4 : Int), (1 : Int)), (4, 2), (5, 3), (5, 4)] 3 =
        Outcome.ok res ∧
      ∀ i : Int, 1 ≤ i → i ≤ 3 → resultFor res i = [i] :=
  ⟨by decide, bip_tip_singleton (by decide)⟩

/-- C5: on Scenario B (edges (4,1),(4,2),(5,3),(5,4), nTips = 3) the
function returns the mapping 1 to [1], 2 to [2], 3 to [3], 4 to [1,2],
5 to [1,2,3]. -/
theorem bip_scenarioB :
    bipCPP [((4 : Int), (1 : Int)), (4, 2), (5, 3), (5, 4)] 3 =
      Outcome.ok [[1], [2], [3], [1, 2], [1, 2, 3]] := by
  decide

/-- C6: for every rooted valid tree input, the node id `maxNodeId` — the
one id that never appears as a child — is mapped to the full ascending
tip list `[1, ..., nTips]`. -/
theorem bip_root_full {edges : List (Int × Int)} {nTips : Int}
    (hv : rootedTree edges nTips = true) :
    ∃ res, bipCPP edges nTips = Outcome.ok res ∧
      resultFor res (maxParent edges) = upTo nTips := by
  obtain ⟨hvt, hcov2, hroot⟩ := rootedTree_facts hv
  obtain ⟨hne, hpos, hle, hall, hcov, hnd, hbu⟩ := validTree_facts hvt
  obtain ⟨s, t2, hs1, hslen, hseed, ht2, htlen, hbip⟩ := bip_run hvt
  refine ⟨_, hbip, ?_⟩
  have hnodup : ∀ x : Nat, (entry t2 x).Nodup :=
    processEdges_nodup (fun a => 1 ≤ a) ht2 hbu hnd
      (fun f hf => (hall f hf).2.2)
      (fun f hf => ⟨by have h3 := (hall f hf).2.2; omega, (hall f hf).1⟩)
      (fun a ha => ha) (seed_entry_nodup hseed)
      (fun a b ha hb => seed_entry_disjoint hseed a b ha hb)
      (fun c hc => seed_entry_localized hseed c hc)
  have hinit : ∀ x : Nat, ∀ w ∈ entry s x, 1 ≤ w ∧ w ≤ nTips := by
    intro x w hw
    rw [hseed] at hw
    split at hw
    · rename_i hx
      have hw2 : w = ((x : Int)) + 1 := List.mem_singleton.mp hw
      omega
    · exact absurd hw (by simp)
  have hcontent := processEdges_content ht2 (fun f hf _ => (hall f hf).1) hinit
  rw [resultFor, entry_map_sort]
  apply insertionSort_eq_of_sorted_nodup (hnodup _) upTo_sorted upTo_nodup
  intro v
  rw [mem_upTo]
  constructor
  · intro hvmem
    exact hcontent _ v hvmem
  · rintro ⟨hv1, hv2⟩
    have hstart : v ∈ entry s (v - 1).toNat := by
      rw [hseed, if_pos (by omega)]
      have hcast : (((v - 1).toNat : Int)) + 1 = v := by omega
      rw [hcast]
      exact List.mem_singleton.mpr rfl
    obtain ⟨b, hbl, hbun, hbv⟩ := processEdges_tip_kept
      (fun a => 1 ≤ a ∧ a ≤ maxParent edges) ht2 hbu hnd
      (fun f hf => (hall f hf).2.2)
      (fun f hf => ⟨⟨by have h3 := (hall f hf).2.2; omega,
          mem_le_maxParent hf⟩,
        ⟨(hall f hf).1, (hall f hf).2.1⟩⟩)
      (fun a ha => ha.1)
      (fun c hc => seed_entry_localized hseed c hc.1)
      (fun c hc => seed_entry_tip hseed c hc.1)
      v v ⟨hv1, by omega⟩ hstart
    have hbm : b = maxParent edges := by
      by_contra hbm
      obtain ⟨f, hf, hfb⟩ := hcov2 b hbl.1 (lt_of_le_of_ne hbl.2 hbm)
      exact hbun f hf hfb
    rw [hbm] at hbv
    exact hbv

/-- Witness for C6 at Scenario B: the input is a rooted valid tree and
node 5 (= maxNodeId) receives the full tip list [1, 2, 3]. -/
theorem bip_root_full_witness :
    rootedTree [((4 : Int), (1 : Int)), (4, 2), (5, 3), (5, 4)] 3 = true ∧
    ∃ res, bipCPP [((4 : Int), (1 : Int)), (4, 2), (5, 3), (5, 4)] 3 =
        Outcome.ok res ∧
      resultFor res
          (maxParent [((4 : Int), (1 : Int)), (4, 2), (5, 3), (5, 4)]) =
        upTo 3 :=
  ⟨by decide, bip_root_full (by decide)⟩

/-- C7: processing an edge with an internal child appends a value copy of
the child's current container to the parent's container; the child's
entry is unchanged by the step, every index other than the parent's is
unchanged, and later processing that never writes the child as a parent
again — in particular any further growth of the parent's container —
leaves the child's entry untouched. -/
theorem bip_internal_child_copy {nTips : Int} {t t' : List (List Int)}
    {e : Int × Int} (hrun : processEdge nTips t e = some t')
    (hint : nTips < e.2) (hne : e.1 ≠ e.2) :
    entry t' (e.2 - 1).toNat = entry t (e.2 - 1).toNat ∧
    entry t' (e.1 - 1).toNat =
      entry t (e.1 - 1).toNat ++ entry t (e.2 - 1).toNat ∧
    (∀ x : Nat, x ≠ (e.1 - 1).toNat → entry t' x = entry t x) ∧
    ∀ (rest : List (Int × Int)) (t2 : List (List Int)),
      processEdges nTips t' rest = some t2 →
      (∀ f ∈ rest, f.1 ≠ e.2) →
      entry t2 (e.2 - 1).toNat = entry t (e.2 - 1).toNat := by
  obtain ⟨⟨hj0, hjlen⟩, hcb, rfl⟩ := processEdge_some.mp hrun
  obtain ⟨hc0, hclen⟩ := hcb hint
  have hidx : (e.1 - 1).toNat ≠ (e.2 - 1).toNat := by omega
  have hcontr : contrib nTips t e = entry t (e.2 - 1).toNat := by
    unfold contrib
    rw [if_pos hint]
  refine ⟨entry_set_ne hidx _, ?_, ?_, ?_⟩
  · rw [entry_set_self hjlen, hcontr]
  · intro x hx
    exact entry_set_ne (fun hh => hx hh.symm) _
  · intro rest t2 hrest hnoc
    rw [processEdges_stable hrest e.2 (by omega) hnoc, entry_set_ne hidx]

/-- Witness for C7: table [[1],[2],[3],[1,2],[3]] and edge (5,4) with
nTips = 3 — the child entry [1,2] is copied onto the parent entry. -/
theorem bip_internal_child_copy_witness :
    processEdge 3 [[1], [2], [3], [1, 2], [3]] ((5 : Int), (4 : Int)) =
      some [[1], [2], [3], [1, 2], [3, 1, 2]] ∧
    ((3 : Int) < 4 ∧ ((5 : Int)) ≠ (4 : Int)) ∧
    (entry [[1], [2], [3], [1, 2], [3, 1, 2]] (((4 : Int)) - 1).toNat =
        entry [[1], [2], [3], [1, 2], [3]] (((4 : Int)) - 1).toNat ∧
      entry [[1], [2], [3], [1, 2], [3, 1, 2]] (((5 : Int)) - 1).toNat =
        entry [[1], [2], [3], [1, 2], [3]] (((5 : Int)) - 1).toNat ++
          entry [[1], [2], [3], [1, 2], [3]] (((4 : Int)) - 1).toNat ∧
      (∀ x : Nat, x ≠ (((5 : Int)) - 1).toNat →
        entry [[1], [2], [3], [1, 2], [3, 1, 2]] x =
          entry [[1], [2], [3], [1, 2], [3]] x) ∧
      ∀ (rest : List (Int × Int)) (t2 : List (List Int)),
        processEdges 3 [[1], [2], [3], [1, 2], [3, 1, 2]] rest = some t2 →
        (∀ f ∈ rest, f.1 ≠ ((4 : Int))) →
        entry t2 (((4 : Int)) - 1).toNat =
          entry [[1], [2], [3], [1, 2], [3]] (((4 : Int)) - 1).toNat) :=
  ⟨by decide, ⟨by decide, by decide⟩,
    @bip_internal_child_copy 3 [[1], [2], [3], [1, 2], [3]]
      [[1], [2], [3], [1, 2], [3, 1, 2]] ((5 : Int), (4 : Int))
      (by decide) (by decide) (by decide)⟩

/-- C8: the function is a pure, deterministic function of the edge list
and tip count; equal inputs give identical outcomes (all state in the
source is local to one invocation). -/
theorem bip_deterministic (e1 e2 : List (Int × Int)) (n1 n2 : Int)
    (he : e1 = e2) (hn : n1 = n2) : bipCPP e1 n1 = bipCPP e2 n2 := by
  rw [he, hn]

/-- Witness for C8 at a concrete input. -/
theorem bip_deterministic_witness :
    ([((2 : Int), (1 : Int))] = [((2 : Int), (1 : Int))]) ∧
      ((1 : Int) = (1 : Int)) ∧
      bipCPP [((2 : Int), (1 : Int))] 1 = bipCPP [((2 : Int), (1 : Int))] 1 :=
  ⟨rfl, rfl, bip_deterministic _ _ _ _ rfl rfl⟩

/-- C9: on a table of `max(parent)` containers (allocated only when that
maximum is nonnegative), the seeding loop writes `out[i]` for every
`i = 0 .. nTips-1`; all these writes are in bounds when
`nTips ≤ max(parent)`, and for every input with `nTips` greater than
`max(parent)` the seeding indexes past the end of the table and the whole
run is undefined behavior. -/
theorem bip_seed_bounds {edges : List (Int × Int)} {nTips m : Int}
    (hm : rcppMax (edges.map Prod.fst) = some m) (hm0 : 0 ≤ m) :
    (nTips ≤ m →
      ∃ t1, seedTips (List.replicate m.toNat []) nTips = some t1) ∧
    (m < nTips →
      seedTips (List.replicate m.toNat ([] : List Int)) nTips = none ∧
        bipCPP edges nTips = Outcome.ub) := by
  constructor
  · intro hle
    have hb : nTips.toNat ≤
        (List.replicate m.toNat ([] : List Int)).length := by
      simp only [List.length_replicate]; omega
    obtain ⟨t1, h1, _, _⟩ := seedTips_some hb
    exact ⟨t1, h1⟩
  · intro hlt
    have hnone : seedTips (List.replicate m.toNat ([] : List Int)) nTips =
        none :=
      seedTips_none (by simp only [List.length_replicate]; omega)
    refine ⟨hnone, ?_⟩
    unfold bipCPP
    rw [hm]
    have hmne : ¬ m < 0 := by omega
    simp only [hmne, if_false, hnone]

/-- Witness for C9: one edge (2,1), so max(parent) = 2, with nTips = 5;
seeding fails and the run is undefined behavior. -/
theorem bip_seed_bounds_witness :
    rcppMax ([((2 : Int), (1 : Int))].map Prod.fst) = some 2 ∧
      (0 : Int) ≤ 2 ∧
      (((5 : Int)) ≤ 2 →
        ∃ t1, seedTips (List.replicate (2 : Int).toNat []) 5 = some t1) ∧
      ((2 : Int) < 5 →
        seedTips (List.replicate (2 : Int).toNat ([] : List Int)) 5 = none ∧
          bipCPP [((2 : Int), (1 : Int))] 5 = Outcome.ub) :=
  ⟨by decide, by decide,
    (@bip_seed_bounds [((2 : Int), (1 : Int))] 5 2 (by decide) (by decide)).1,
    (@bip_seed_bounds [((2 : Int), (1 : Int))] 5 2 (by decide) (by decide)).2⟩

/-- C10: a call of the function leaves the caller's edge matrix exactly
as it was — the body reads the two columns into its own vectors and never
writes back to the matrix. -/
theorem bip_input_preserved (orig : List (Int × Int)) (nTips : Int) :
    (bipCPPRun orig nTips).1 = orig := rfl

theorem seedLoop_length :
    ∀ {l : List Nat} {t t' : List (List Int)},
      seedLoop t l = some t' → t'.length = t.length
  | [], t, t', h => by
      simp only [seedLoop, Option.some.injEq] at h
      rw [← h]
  | i :: rest, t, t', h => by
      rcases hg : getAt t (i : Int) with _ | cur
      · rw [seedLoop, hg] at h
        exact absurd h (by simp)
      rcases hs : setAt t (i : Int) (cur ++ [(i : Int) + 1]) with _ | t1
      · simp only [seedLoop, hg, hs] at h
        exact absurd h (by simp)
      · simp only [seedLoop, hg, hs] at h
        have h2 := seedLoop_length h
        obtain ⟨_, rfl⟩ := setAt_some.mp hs
        simpa using h2

theorem processEdges_overflow {nTips : Int} :
    ∀ {edges : List (Int × Int)} {t : List (List Int)} {p c : Int},
      (p, c) ∈ edges → nTips < c → t.length ≤ (c - 1).toNat →
      processEdges nTips t edges = none
  | [], t, p, c, hmem => absurd hmem (by simp)
  | e :: rest, t, p, c, hmem => by
      intro hcn hlen
      rcases List.mem_cons.mp hmem with heq | hmem2
      · have hstep : processEdge nTips t e = none := by
          rcases hs : processEdge nTips t e with _ | t1
          · rfl
          · exfalso
            obtain ⟨hb1, hb2, _⟩ := processEdge_some.mp hs
            have hc2 : e.2 = c := by rw [← heq]
            obtain ⟨hc0, hclen⟩ := hb2 (by omega)
            omega
        simp only [processEdges, hstep]
      · rcases hs : processEdge nTips t e with _ | t1
        · simp only [processEdges, hs]
        · simp only [processEdges, hs]
          have hl1 : t1.length = t.length := processEdge_length hs
          exact processEdges_overflow hmem2 hcn (by omega)

/-- C3 counterexample: on edges (2,1),(2,3) with nTips = 1 the child id 3
exceeds both nTips and max(parent) = 2.  The run does not surface any
input error to the caller (the only caller-visible failure channel in
the source, modelled `thrown`); it performs an out-of-bounds read of the
descendant table, i.e. undefined behavior (`ub`). -/
theorem bip_child_overflow_ub :
    bipCPP [((2 : Int), (1 : Int)), (2, 3)] 1 = Outcome.ub ∧
      bipCPP [((2 : Int), (1 : Int)), (2, 3)] 1 ≠ Outcome.thrown := by
  decide

/-- C3 amended: whenever some edge carries a child id exceeding both
`nTips` and the maximum parent id, the function never returns a result —
the run aborts with an out-of-bounds access (undefined behavior) or a
failed allocation; no validated input error is signaled. -/
theorem bip_child_overflow_no_result {edges : List (Int × Int)}
    {nTips p c : Int} (hmem : (p, c) ∈ edges) (hcn : nTips < c)
    (hcm : maxParent edges < c) :
    ∀ r, bipCPP edges nTips ≠ Outcome.ok r := by
  intro r hok
  have hne : edges ≠ [] := by
    intro h0
    rw [h0] at hmem
    exact absurd hmem (by simp)
  unfold bipCPP at hok
  simp only [rcppMax_eq_maxParent hne] at hok
  by_cases hm0 : maxParent edges < 0
  · rw [if_pos hm0] at hok
    exact Outcome.noConfusion hok
  · rw [if_neg hm0] at hok
    rcases hsd : seedTips (List.replicate (maxParent edges).toNat []) nTips
      with _ | s
    · simp only [hsd] at hok
      exact Outcome.noConfusion hok
    · simp only [hsd] at hok
      have hslen : s.length = (maxParent edges).toNat := by
        unfold seedTips at hsd
        have h2 := seedLoop_length hsd
        simpa using h2
      have hfail : processEdges nTips s edges = none :=
        processEdges_overflow hmem hcn (by omega)
      simp only [hfail] at hok
      exact Outcome.noConfusion hok

/-- Witness for the amended C3 at the counterexample input. -/
theorem bip_child_overflow_no_result_witness :
    (((2 : Int)), ((3 : Int))) ∈ [((2 : Int), (1 : Int)), (2, 3)] ∧
      (1 : Int) < 3 ∧ maxParent [((2 : Int), (1 : Int)), (2, 3)] < 3 ∧
      bipCPP [((2 : Int), (1 : Int)), (2, 3)] 1 ≠ Outcome.ok [] :=
  ⟨by decide, by decide, by decide,
    @bip_child_overflow_no_result [((2 : Int), (1 : Int)), (2, 3)] 1 2 3
      (by decide) (by decide) (by decide) []⟩

/-- C2 counterexample: on edges (3,1),(3,0) with nTips = 2 — an edge list
containing child id 0 — the run neither hits undefined behavior nor
surfaces any failure to the caller: no MalformedInput rejection happens
and a full result is returned. -/
theorem bip_child_zero_not_rejected :
    bipCPP [((3 : Int), (1 : Int)), (3, 0)] 2 ≠ Outcome.ub ∧
      bipCPP [((3 : Int), (1 : Int)), (3, 0)] 2 ≠ Outcome.thrown := by
  decide

/-- C2 amended: the function performs no eager malformed-input detection;
an edge list containing child id 0 is processed without any signaled
failure — 0 is at most nTips, so it is treated as a tip label and pushed
onto its parent's container — and a complete result is returned, here
the mapping 1 to [1], 2 to [2], 3 to [0, 1]. -/
theorem bip_child_zero_result :
    bipCPP [((3 : Int), (1 : Int)), (3, 0)] 2 =
      Outcome.ok [[1], [2], [0, 1]] := by
  decide
